import Mathlib

/-!
Verification of the array-encoded min-heap (`src/minheap.py`).

The heap stores Python floats in a plain Python list `self.data`.  We model
the stored numeric values by `Int` (the claims only depend on the linear
order of the stored values, never on rounding), and a slot of the backing
list by `Option Int`: Python code can in principle store `None` in a slot
(via `_swap` reading an out-of-bounds value), and `_get_value` returns the
sentinel `None` for an out-of-bounds read, so a slot/read result is
"a number or `None`", i.e. `Option Int`.

Each method mutates `self.data` in place and may raise.  We model a method
body as a function `List Entry → Res α`: the result carries the final state
of `self.data` both on normal return (`Res.ok`) and when an exception
propagates out (`Res.err`), matching in-place mutation semantics.

The source is Python 2 (it uses `print` statements).  In CPython 2, `None`
compares less than every number; `pyLt`/`pyGt` encode that comparison on
`Option Int`.  The `debug` flag only triggers `print` calls and has no
effect on `self.data`, so it is omitted.
-/

namespace MinHeap

/-- Numeric values stored in the heap (model of Python floats:
only their linear order matters for the heap code). -/
abbrev Val := Int

/-- One slot of the backing list, or the result of `_get_value`:
a number, or Python `None`. -/
abbrev Entry := Option Val

/-- The error conditions of the source, following the taxonomy of the spec:
`invalidValue` models the `ValueError` raised by `float(value)` in `push`;
`emptyHeap` models `MinHeapError("Heap is empty")` in `pop`;
`noParent` models `MinHeapError("Root node has no parent")` in `_get_parent_idx`;
`nodeNotFound` models `MinHeapError("Node does not exist")` in `_set_value`. -/
inductive Error where
  | invalidValue
  | emptyHeap
  | noParent
  | nodeNotFound
deriving DecidableEq, Repr

/-- Outcome of running a method body on a heap whose backing list is a
`List Entry`: either a normal return with value `a`, or a propagating
exception `e`.  Both carry the final backing list, since mutation is
in place and survives an exception. -/
inductive Res (α : Type) where
  | ok (a : α) (data : List Entry)
  | err (e : Error) (data : List Entry)
deriving DecidableEq, Repr

/-- The final backing list of a method run, whether it returned or raised. -/
def resState {α : Type} : Res α → List Entry
  | .ok _ d => d
  | .err _ d => d

/-- CPython 2 `<` on "number or None": `None` is less than every number,
numbers compare numerically. -/
def pyLt : Entry → Entry → Bool
  | none, none => false
  | none, some _ => true
  | some _, none => false
  | some a, some b => decide (a < b)

/-- CPython 2 `>` on "number or None": `a > b` holds exactly when `b < a`. -/
def pyGt (a b : Entry) : Bool := pyLt b a

/-- CPython 2 `<=` on "number or None": `a <= b` holds exactly when
not `b < a`. -/
def pyLe (a b : Entry) : Bool := !pyLt b a

/-- `_get_parent_idx`: raises for the root, otherwise `(idx - 1) // 2`. -/
def get_parent_idx (idx : Nat) : Except Error Nat :=
  if idx = 0 then .error .noParent
  else .ok ((idx - 1) / 2)

/-- `_get_left_idx`. -/
def get_left_idx (idx : Nat) : Nat := 2 * idx + 1

/-- `_get_right_idx`. -/
def get_right_idx (idx : Nat) : Nat := 2 * idx + 2

/-- `_get_value`: `None` if `len(self.data) - 1 < idx` (the comparison is on
Python ints, hence the cast to `Int`), otherwise the slot `self.data[idx]`. -/
def get_value (d : List Entry) (idx : Nat) : Entry :=
  if (d.length : Int) - 1 < (idx : Int) then none
  else d.getD idx none

/-- `_set_value`: raises `Node does not exist` if `len(self.data) - 1 < idx`,
otherwise stores `value` at `idx`. -/
def set_value (d : List Entry) (idx : Nat) (value : Entry) : Res Unit :=
  if (d.length : Int) - 1 < (idx : Int) then .err .nodeNotFound d
  else .ok () (d.set idx value)

/-- `_swap`: `temp = get(idx1); set(idx1, get(idx2)); set(idx2, temp)`,
with the exception of the first failing `_set_value` propagating. -/
def swap (d : List Entry) (idx1 idx2 : Nat) : Res Unit :=
  let temp := get_value d idx1
  match set_value d idx1 (get_value d idx2) with
  | .ok _ d1 => set_value d1 idx2 temp
  | .err e d1 => .err e d1

/-- `_bubble_up`: return at the root; otherwise, if the node is strictly
smaller than its parent, swap them and recurse on the parent index. -/
def bubble_up (d : List Entry) (idx : Nat) : Res Unit :=
  if idx = 0 then .ok () d
  else
    match h : get_parent_idx idx with
    | .error e => .err e d
    | .ok parent_idx =>
      if pyLt (get_value d idx) (get_value d parent_idx) then
        match swap d idx parent_idx with
        | .ok _ d1 => bubble_up d1 parent_idx
        | .err e d1 => .err e d1
      else .ok () d
termination_by idx
decreasing_by
  simp only [get_parent_idx] at h
  split at h
  · exact absurd h (by simp)
  · simp only [Except.ok.injEq] at h
    omega

/-- The child-selection step of `_bubble_down` (lines 185-190 of the source):
the left child is selected if the right value is `None` or the left value is
strictly smaller; otherwise the right child is selected.  Returns the selected
index together with its value. -/
def smaller_child (d : List Entry) (idx : Nat) : Nat × Entry :=
  let left_idx := get_left_idx idx
  let right_idx := get_right_idx idx
  let left_val := get_value d left_idx
  let right_val := get_value d right_idx
  if right_val = none ∨ pyLt left_val right_val then (left_idx, left_val)
  else (right_idx, right_val)

/-- `_bubble_down`: return if both child values are `None`; otherwise, if the
node is strictly greater than the selected smaller child, swap them and
recurse on that child index. -/
def bubble_down (d : List Entry) (idx : Nat) : Res Unit :=
  let left_val := get_value d (get_left_idx idx)
  let right_val := get_value d (get_right_idx idx)
  if left_val = none ∧ right_val = none then .ok () d
  else
    let smaller := smaller_child d idx
    let value := get_value d idx
    if pyGt value smaller.2 then
      match h : swap d idx smaller.1 with
      | .ok _ d1 => bubble_down d1 smaller.1
      | .err e d1 => .err e d1
    else .ok () d
termination_by d.length - idx
decreasing_by
  have hsm : idx < (smaller_child d idx).1 := by
    simp only [smaller_child, get_left_idx, get_right_idx]
    split <;> omega
  simp only [swap, set_value] at h
  split at h
  next a dmid c1 =>
    have hs : smaller = smaller_child d idx := rfl
    split at c1
    next => exact absurd c1 (by simp)
    next cond1 =>
      split at h
      next => exact absurd h (by simp)
      next cond2 =>
        have hmid : dmid = d.set idx (get_value d smaller.1) := by
          simp only [Res.ok.injEq] at c1
          exact c1.2.symm
        have hd1 : d1 = dmid.set smaller.1 (get_value d idx) := by
          simp only [Res.ok.injEq] at h
          exact h.2.symm
        rw [hs] at cond2 hmid hd1
        rw [hmid] at cond2 hd1
        simp only [List.length_set] at cond2
        have hlen : d1.length = d.length := by
          rw [hd1]
          simp
        omega
  next e dmid c1 => exact absurd h (by simp)

/-- The raw argument of a single-value `push` call, as seen after Python
dispatch: `num v` models an input that `float(value)` converts to the number
`v` (a number, or a numeric string); `invalid` models an input that
`float(value)` rejects with `ValueError` (e.g. a non-numeric string). -/
inductive RawValue where
  | num (v : Val)
  | invalid
deriving DecidableEq, Repr

/-- `float(value)` at the `push` boundary: the conversion either yields the
numeric value or raises `ValueError` (modelled as `Error.invalidValue`). -/
def toFloat : RawValue → Except Error Val
  | .num v => .ok v
  | .invalid => .error .invalidValue

/-- The argument of a `push` call: a single value, or a list of values.
(Nested lists are not modelled; the claims concern flat lists.) -/
inductive PushArg where
  | single (r : RawValue)
  | list (rs : List RawValue)
deriving DecidableEq, Repr

/-- The single-value branch of `push`: convert, append at the end, then
`_bubble_up` from the last index. -/
def push_single (d : List Entry) (r : RawValue) : Res Unit :=
  match toFloat r with
  | .error e => .err e d
  | .ok v =>
    let d1 := d ++ [some v]
    bubble_up d1 (d1.length - 1)

/-- The list branch of `push`: `for item in value: self.push(item)`, with the
first exception propagating and the mutations made so far kept. -/
def push_list (d : List Entry) : List RawValue → Res Unit
  | [] => .ok () d
  | r :: rs =>
    match push_single d r with
    | .ok _ d1 => push_list d1 rs
    | .err e d1 => .err e d1

/-- `push`: dispatch on `isinstance(value, list)`. -/
def push (d : List Entry) : PushArg → Res Unit
  | .single r => push_single d r
  | .list rs => push_list d rs

/-- `pop`: raise on the empty heap; with one element, remove and return it;
otherwise swap root and last, remove and capture the last slot, `_bubble_down`
from the root, and return the captured value. -/
def pop (d : List Entry) : Res Entry :=
  let size := d.length
  if size = 0 then .err .emptyHeap d
  else if size = 1 then .ok d.getLast?.join d.dropLast
  else
    let last_idx := size - 1
    match swap d 0 last_idx with
    | .err e d1 => .err e d1
    | .ok _ d1 =>
      let value := d1.getLast?.join
      let d2 := d1.dropLast
      match bubble_down d2 0 with
      | .err e d3 => .err e d3
      | .ok _ d3 => .ok value d3

/-- `clear`: reset the backing list to empty. -/
def clear (_d : List Entry) : List Entry := []

/-- The min-heap property of a backing list, exactly as the spec states it:
for every valid index `i > 0`, `elements[(i-1)//2] <= elements[i]`
(Python `<=` on the stored slots). -/
def isHeap (d : List Entry) : Prop :=
  ∀ i, 0 < i → i < d.length →
    pyLe (get_value d ((i - 1) / 2)) (get_value d i) = true

/-- Every slot of the backing list holds a number (no corrupted `None` slot);
true of every state reachable through the public operations. -/
def allSome (d : List Entry) : Prop := ∀ x ∈ d, x ≠ none

/-- A public operation on the heap: a `push` call (single or list argument)
or a `pop` call. -/
inductive Op where
  | push (arg : PushArg)
  | pop
deriving DecidableEq, Repr

/-- The backing list after one public call, completed or raising: mutation is
in place, so the state of `resState` persists either way. -/
def applyOp (d : List Entry) : Op → List Entry
  | .push arg => resState (push d arg)
  | .pop => resState (pop d)

/-- The backing list after a sequence of public calls starting from `d`. -/
def runOps (d : List Entry) : List Op → List Entry
  | [] => d
  | op :: rest => runOps (applyOp d op) rest

/-- A single-value operation for the size-tracking property: a single-value
`push` of the number `v`, or a `pop`. -/
inductive SOp where
  | push (v : Val)
  | pop
deriving DecidableEq, Repr

/-- Run a sequence of single-value operations, requiring every call to
complete: `none` if any call raises. -/
def runSOps (d : List Entry) : List SOp → Option (List Entry)
  | [] => some d
  | .push v :: rest =>
    match push d (.single (.num v)) with
    | .ok _ d1 => runSOps d1 rest
    | .err _ _ => none
  | .pop :: rest =>
    match pop d with
    | .ok _ d1 => runSOps d1 rest
    | .err _ _ => none

/-- Number of pushes in a sequence of single-value operations. -/
def countPush : List SOp → Nat
  | [] => 0
  | .push _ :: rest => countPush rest + 1
  | .pop :: rest => countPush rest

/-- Number of pops in a sequence of single-value operations. -/
def countPop : List SOp → Nat
  | [] => 0
  | .push _ :: rest => countPop rest
  | .pop :: rest => countPop rest + 1

/-- Pop `n` times, collecting the returned values in call order;
`none` if any of the `n` calls raises. -/
def popN (d : List Entry) : Nat → Option (List Entry)
  | 0 => some []
  | n + 1 =>
    match pop d with
    | .ok v d1 => (popN d1 n).map (v :: ·)
    | .err _ _ => none

/-- Modelled from the spec: pushing a sequence `[a, b, c]` performs
"three sequential single pushes of `a`, then `b`, then `c`", each through the
public single-value `push` entry point, the first exception propagating.
This is the spec side of the batch-push refinement claim, to be compared
with the list branch of `push`. -/
def push_seq_spec (d : List Entry) : List RawValue → Res Unit
  | [] => .ok () d
  | r :: rs =>
    match push d (.single r) with
    | .ok _ d1 => push_seq_spec d1 rs
    | .err e d1 => .err e d1

/-- The internal-only error conditions of the spec. -/
def internalError : Error → Bool
  | .noParent => true
  | .nodeNotFound => true
  | .invalidValue => false
  | .emptyHeap => false

/-- Whether a method run ended in an internal-only error condition. -/
def hitsInternal {α : Type} : Res α → Bool
  | .ok _ _ => false
  | .err e _ => internalError e

/-- `_bubble_up` with an explicit recursion budget: `none` when the budget is
exhausted, `some` of the run otherwise.  Used to state termination: the
recursion strictly descends from `idx` toward the root, so a budget of
`idx + 1` always suffices. -/
def bubble_up_fuel (fuel : Nat) (d : List Entry) (idx : Nat) : Option (Res Unit) :=
  match fuel with
  | 0 => none
  | fuel + 1 =>
    if idx = 0 then some (.ok () d)
    else
      match get_parent_idx idx with
      | .error e => some (.err e d)
      | .ok parent_idx =>
        if pyLt (get_value d idx) (get_value d parent_idx) then
          match swap d idx parent_idx with
          | .ok _ d1 => bubble_up_fuel fuel d1 parent_idx
          | .err e d1 => some (.err e d1)
        else some (.ok () d)

/-- `_bubble_down` with an explicit recursion budget: `none` when the budget
is exhausted.  The recursion strictly descends toward the leaves and stays
inside the sequence bounds, so a budget of `length + 1` always suffices. -/
def bubble_down_fuel (fuel : Nat) (d : List Entry) (idx : Nat) : Option (Res Unit) :=
  match fuel with
  | 0 => none
  | fuel + 1 =>
    let left_val := get_value d (get_left_idx idx)
    let right_val := get_value d (get_right_idx idx)
    if left_val = none ∧ right_val = none then some (.ok () d)
    else
      let smaller := smaller_child d idx
      let value := get_value d idx
      if pyGt value smaller.2 then
        match swap d idx smaller.1 with
        | .ok _ d1 => bubble_down_fuel fuel d1 smaller.1
        | .err e d1 => some (.err e d1)
      else some (.ok () d)

/-- The backing list after a successful in-bounds `_swap idx1 idx2`:
slot `idx1` receives the old slot `idx2` and vice versa. -/
def swapped (d : List Entry) (idx1 idx2 : Nat) : List Entry :=
  (d.set idx1 (get_value d idx2)).set idx2 (get_value d idx1)

/-! ### Order facts about the CPython 2 comparison on `Option Int` -/

theorem pyLe_refl (a : Entry) : pyLe a a = true := by
  cases a <;> simp [pyLe, pyLt]

theorem pyLe_trans {a b c : Entry} (h1 : pyLe a b = true) (h2 : pyLe b c = true) :
    pyLe a c = true := by
  cases a <;> cases b <;> cases c <;> simp_all [pyLe, pyLt]
  exact le_trans h1 h2

theorem pyLe_of_pyLt {a b : Entry} (h : pyLt a b = true) : pyLe a b = true := by
  cases a <;> cases b <;> simp_all [pyLe, pyLt]
  exact le_of_lt h

theorem pyLe_of_not_pyLt {a b : Entry} (h : pyLt a b = false) : pyLe b a = true := by
  simp [pyLe, h]

theorem pyLe_of_not_pyGt {a b : Entry} (h : pyGt a b = false) : pyLe a b = true := by
  simp [pyGt] at h
  simp [pyLe, h]

theorem pyLt_none_right (a : Entry) : pyLt a none = false := by
  cases a <;> rfl

theorem pyGt_none_left (b : Entry) : pyGt none b = false := by
  simp [pyGt, pyLt_none_right]

theorem pyLe_antisymm {a b : Entry} (h1 : pyLe a b = true) (h2 : pyLe b a = true) :
    a = b := by
  cases a <;> cases b <;> simp_all [pyLe, pyLt]
  exact le_antisymm h1 h2

theorem pyLe_total (a b : Entry) : pyLe a b = true ∨ pyLe b a = true := by
  cases a <;> cases b <;> simp [pyLe, pyLt]
  exact le_total _ _

/-! ### Reading and writing slots -/

theorem get_value_eq (d : List Entry) (i : Nat) :
    get_value d i = (d[i]?).getD none := by
  unfold get_value
  split
  next hc =>
    have hle : d.length ≤ i := by omega
    rw [List.getElem?_eq_none hle]
    rfl
  next hc =>
    exact List.getD_eq_getElem?_getD d i none

theorem get_value_oob {d : List Entry} {i : Nat} (h : d.length ≤ i) :
    get_value d i = none := by
  rw [get_value_eq, List.getElem?_eq_none h]
  rfl

theorem get_value_lt {d : List Entry} {i : Nat} (h : i < d.length) :
    get_value d i = d[i] := by
  rw [get_value_eq, List.getElem?_eq_getElem h]
  rfl

theorem lt_length_of_get_value_ne_none {d : List Entry} {i : Nat}
    (h : get_value d i ≠ none) : i < d.length := by
  by_contra hc
  exact h (get_value_oob (by omega))

theorem get_value_set_self {d : List Entry} {i : Nat} {v : Entry}
    (h : i < d.length) : get_value (d.set i v) i = v := by
  rw [get_value_eq, List.getElem?_set_self h]
  rfl

theorem get_value_set_ne {d : List Entry} {i j : Nat} {v : Entry}
    (h : i ≠ j) : get_value (d.set i v) j = get_value d j := by
  rw [get_value_eq, List.getElem?_set_ne h, ← get_value_eq]

theorem get_value_append_lt {d l : List Entry} {i : Nat} (h : i < d.length) :
    get_value (d ++ l) i = get_value d i := by
  rw [get_value_eq, List.getElem?_append, if_pos h, ← get_value_eq]

theorem get_value_concat_length (d : List Entry) (v : Entry) :
    get_value (d ++ [v]) d.length = v := by
  rw [get_value_eq, List.getElem?_concat_length]
  rfl

theorem get_value_dropLast {d : List Entry} {i : Nat} (h : i < d.length - 1) :
    get_value d.dropLast i = get_value d i := by
  rw [get_value_eq, List.getElem?_dropLast, if_pos h, ← get_value_eq]

theorem get_value_mem {d : List Entry} {i : Nat} (h : i < d.length) :
    get_value d i ∈ d := by
  rw [get_value_lt h]
  exact List.getElem_mem h

theorem mem_of_get_value {d : List Entry} {x : Entry} (h : x ∈ d) :
    ∃ i, i < d.length ∧ get_value d i = x := by
  obtain ⟨i, hi, hx⟩ := List.mem_iff_getElem.1 h
  exact ⟨i, hi, by rw [get_value_lt hi, hx]⟩

theorem allSome_get_value {d : List Entry} (hall : allSome d) {i : Nat}
    (h : i < d.length) : get_value d i ≠ none :=
  hall _ (get_value_mem h)

theorem set_value_ok {d : List Entry} {i : Nat} (v : Entry) (h : i < d.length) :
    set_value d i v = .ok () (d.set i v) := by
  have hc : ¬((d.length : Int) - 1 < (i : Int)) := by omega
  unfold set_value
  rw [if_neg hc]

theorem swap_ok {d : List Entry} {i j : Nat} (hi : i < d.length)
    (hj : j < d.length) : swap d i j = .ok () (swapped d i j) := by
  unfold swap swapped
  rw [set_value_ok _ hi]
  show set_value (d.set i (get_value d j)) j (get_value d i) = _
  rw [set_value_ok _ (by simpa using hj)]

theorem swapped_length (d : List Entry) (i j : Nat) :
    (swapped d i j).length = d.length := by
  simp [swapped]

theorem get_value_swapped_snd {d : List Entry} {i j : Nat} (hj : j < d.length) :
    get_value (swapped d i j) j = get_value d i := by
  unfold swapped
  rw [get_value_set_self (by simpa using hj)]

theorem get_value_swapped_fst {d : List Entry} {i j : Nat} (hij : i ≠ j)
    (hi : i < d.length) : get_value (swapped d i j) i = get_value d j := by
  unfold swapped
  rw [get_value_set_ne (fun hc => hij hc.symm), get_value_set_self hi]

theorem get_value_swapped_other {d : List Entry} {i j k : Nat} (hki : k ≠ i)
    (hkj : k ≠ j) : get_value (swapped d i j) k = get_value d k := by
  unfold swapped
  rw [get_value_set_ne (fun hc => hkj hc.symm), get_value_set_ne (fun hc => hki hc.symm)]

/-! ### `swapped` is a permutation -/

theorem perm_cons_set {t : List Entry} {m : Nat} (a : Entry) (h : m < t.length) :
    (get_value t m :: t.set m a).Perm (a :: t) := by
  induction t generalizing m with
  | nil => simp at h
  | cons e t ih =>
    cases m with
    | zero =>
      have h0 : (0 : Nat) < (e :: t).length := by simp
      rw [get_value_lt h0]
      simpa using List.Perm.swap a e t
    | succ m =>
      have hm : m < t.length := by simpa using h
      have h1 : get_value (e :: t) (m + 1) = get_value t m := by
        rw [get_value_lt h, get_value_lt hm]
        simp
      rw [h1]
      simp only [List.set_cons_succ]
      exact ((List.Perm.swap e (get_value t m) (t.set m a)).trans
        (List.Perm.cons e (ih hm))).trans (List.Perm.swap a e t)

theorem swapped_perm {d : List Entry} {i j : Nat} (hi : i < d.length)
    (hj : j < d.length) : (swapped d i j).Perm d := by
  induction d generalizing i j with
  | nil => simp at hi
  | cons e t ih =>
    have h0 : (0 : Nat) < (e :: t).length := by simp
    cases i with
    | zero =>
      cases j with
      | zero =>
        unfold swapped
        rw [get_value_lt h0]
        simp only [List.getElem_cons_zero, List.set_cons_zero]
        exact List.Perm.refl _
      | succ j =>
        have hjt : j < t.length := by simpa using hj
        unfold swapped
        rw [get_value_lt hj, get_value_lt h0]
        simp only [List.getElem_cons_succ, List.getElem_cons_zero,
          List.set_cons_zero, List.set_cons_succ]
        have hps := perm_cons_set (t := t) (m := j) e hjt
        rw [get_value_lt hjt] at hps
        exact hps
    | succ i =>
      cases j with
      | zero =>
        have hit : i < t.length := by simpa using hi
        unfold swapped
        rw [get_value_lt hi, get_value_lt h0]
        simp only [List.getElem_cons_succ, List.getElem_cons_zero,
          List.set_cons_zero, List.set_cons_succ]
        have hps := perm_cons_set (t := t) (m := i) e hit
        rw [get_value_lt hit] at hps
        exact hps
      | succ j =>
        have hit : i < t.length := by simpa using hi
        have hjt : j < t.length := by simpa using hj
        unfold swapped
        rw [get_value_lt hi, get_value_lt hj]
        simp only [List.getElem_cons_succ, List.set_cons_succ]
        refine List.Perm.cons e ?_
        have hps := ih hit hjt
        unfold swapped at hps
        rw [get_value_lt hit, get_value_lt hjt] at hps
        exact hps

/-! ### Unfolding the sift routines one step at a time -/

theorem bubble_up_zero (d : List Entry) : bubble_up d 0 = .ok () d := by
  rw [bubble_up]
  simp

theorem bubble_up_noswap {d : List Entry} {idx : Nat} (h0 : idx ≠ 0)
    (hcmp : pyLt (get_value d idx) (get_value d ((idx - 1) / 2)) = false) :
    bubble_up d idx = .ok () d := by
  rw [bubble_up, if_neg h0]
  split
  next e h => simp [get_parent_idx, h0] at h
  next p h =>
    simp only [get_parent_idx, if_neg h0, Except.ok.injEq] at h
    subst h
    simp [hcmp]

theorem bubble_up_swap_step {d d1 : List Entry} {idx : Nat} (h0 : idx ≠ 0)
    (hcmp : pyLt (get_value d idx) (get_value d ((idx - 1) / 2)) = true)
    (hsw : swap d idx ((idx - 1) / 2) = .ok () d1) :
    bubble_up d idx = bubble_up d1 ((idx - 1) / 2) := by
  rw [bubble_up, if_neg h0]
  split
  next e h => simp [get_parent_idx, h0] at h
  next p h =>
    simp only [get_parent_idx, if_neg h0, Except.ok.injEq] at h
    subst h
    rw [if_pos hcmp]
    split
    next a d2 hmatch =>
      rw [hsw] at hmatch
      simp only [Res.ok.injEq] at hmatch
      rw [hmatch.2]
    next e d2 hmatch =>
      rw [hsw] at hmatch
      exact absurd hmatch (by simp)

theorem bubble_down_stop {d : List Entry} {k : Nat}
    (hl : get_value d (get_left_idx k) = none)
    (hr : get_value d (get_right_idx k) = none) :
    bubble_down d k = .ok () d := by
  rw [bubble_down]
  simp [hl, hr]

theorem bubble_down_noswap {d : List Entry} {k : Nat}
    (hst : ¬(get_value d (get_left_idx k) = none ∧
      get_value d (get_right_idx k) = none))
    (hgt : pyGt (get_value d k) (smaller_child d k).2 = false) :
    bubble_down d k = .ok () d := by
  rw [bubble_down]
  simp [hst, hgt]

theorem bubble_down_swap_step {d d1 : List Entry} {k : Nat}
    (hst : ¬(get_value d (get_left_idx k) = none ∧
      get_value d (get_right_idx k) = none))
    (hgt : pyGt (get_value d k) (smaller_child d k).2 = true)
    (hsw : swap d k (smaller_child d k).1 = .ok () d1) :
    bubble_down d k = bubble_down d1 (smaller_child d k).1 := by
  rw [bubble_down]
  rw [if_neg hst, if_pos hgt]
  split
  next a d2 hmatch =>
    rw [hsw] at hmatch
    simp only [Res.ok.injEq] at hmatch
    rw [hmatch.2]
  next e d2 hmatch =>
    rw [hsw] at hmatch
    exact absurd hmatch (by simp)

/-! ### Properties of the child-selection step -/

theorem smaller_child_cases (d : List Entry) (k : Nat) :
    smaller_child d k = (get_left_idx k, get_value d (get_left_idx k)) ∨
    smaller_child d k = (get_right_idx k, get_value d (get_right_idx k)) := by
  unfold smaller_child
  dsimp only
  split
  · exact Or.inl rfl
  · exact Or.inr rfl

theorem smaller_child_snd (d : List Entry) (k : Nat) :
    (smaller_child d k).2 = get_value d (smaller_child d k).1 := by
  rcases smaller_child_cases d k with h | h <;> rw [h]

theorem smaller_child_gt (d : List Entry) (k : Nat) :
    k < (smaller_child d k).1 := by
  rcases smaller_child_cases d k with h | h <;> rw [h] <;>
    simp [get_left_idx, get_right_idx] <;> omega

theorem smaller_child_lt_length {d : List Entry} {k : Nat}
    (hst : ¬(get_value d (get_left_idx k) = none ∧
      get_value d (get_right_idx k) = none)) :
    (smaller_child d k).1 < d.length := by
  unfold smaller_child
  dsimp only
  split
  next hc =>
    show get_left_idx k < d.length
    rcases hc with hr | hlt
    · have hlne : get_value d (get_left_idx k) ≠ none := fun hl => hst ⟨hl, hr⟩
      exact lt_length_of_get_value_ne_none hlne
    · by_cases hl : get_value d (get_left_idx k) = none
      · have hrne : get_value d (get_right_idx k) ≠ none := by
          intro hr
          rw [hl, hr] at hlt
          simp [pyLt] at hlt
        have hrlt := lt_length_of_get_value_ne_none hrne
        simp only [get_left_idx, get_right_idx] at hrlt ⊢
        omega
      · exact lt_length_of_get_value_ne_none hl
  next hc =>
    push_neg at hc
    show get_right_idx k < d.length
    exact lt_length_of_get_value_ne_none hc.1

theorem smaller_child_min_left (d : List Entry) (k : Nat) :
    pyLe (smaller_child d k).2 (get_value d (get_left_idx k)) = true := by
  unfold smaller_child
  dsimp only
  split
  next hc =>
    exact pyLe_refl _
  next hc =>
    push_neg at hc
    have hlt : pyLt (get_value d (get_left_idx k))
        (get_value d (get_right_idx k)) = false := by
      simpa using hc.2
    exact pyLe_of_not_pyLt hlt

theorem smaller_child_min_right {d : List Entry} {k : Nat}
    (hr : get_value d (get_right_idx k) ≠ none) :
    pyLe (smaller_child d k).2 (get_value d (get_right_idx k)) = true := by
  unfold smaller_child
  dsimp only
  split
  next hc =>
    rcases hc with hnone | hlt
    · exact absurd hnone hr
    · exact pyLe_of_pyLt hlt
  next hc =>
    exact pyLe_refl _

theorem lt_length_of_pyGt {d : List Entry} {k : Nat} {x : Entry}
    (h : pyGt (get_value d k) x = true) : k < d.length := by
  apply lt_length_of_get_value_ne_none
  intro hn
  rw [hn] at h
  rw [pyGt_none_left] at h
  exact absurd h (by simp)

/-! ### Sift-up restores the heap invariant

The precondition says: every parent/child edge holds except possibly the
ones into slot `idx`, and the would-be grandparent of `idx` is already below
the children of `idx`.  Sift-up then completes normally with a permutation
of the input satisfying the full invariant. -/

theorem bubble_up_spec (idx : Nat) :
    ∀ d : List Entry, idx < d.length →
    (∀ i, 0 < i → i < d.length → i ≠ idx →
      pyLe (get_value d ((i - 1) / 2)) (get_value d i) = true) →
    (∀ c, c < d.length → 0 < c → (c - 1) / 2 = idx → idx ≠ 0 →
      pyLe (get_value d ((idx - 1) / 2)) (get_value d c) = true) →
    ∃ d2, bubble_up d idx = .ok () d2 ∧ d2.Perm d ∧ isHeap d2 := by
  induction idx using Nat.strong_induction_on with
  | _ idx IH =>
    intro d hidx h1 h2
    by_cases h0 : idx = 0
    · subst h0
      refine ⟨d, bubble_up_zero d, List.Perm.refl d, ?_⟩
      intro i hi0 hilen
      exact h1 i hi0 hilen (by omega)
    · have hplt : (idx - 1) / 2 < idx := by omega
      have hpd : (idx - 1) / 2 < d.length := lt_trans hplt hidx
      by_cases hcmp : pyLt (get_value d idx) (get_value d ((idx - 1) / 2)) = true
      case neg =>
        have hf : pyLt (get_value d idx) (get_value d ((idx - 1) / 2)) = false := by
          simpa using hcmp
        refine ⟨d, bubble_up_noswap h0 hf, List.Perm.refl d, ?_⟩
        intro i hi0 hilen
        by_cases hii : i = idx
        · subst hii
          exact pyLe_of_not_pyLt hf
        · exact h1 i hi0 hilen hii
      case pos =>
        have hsw : swap d idx ((idx - 1) / 2) = .ok () (swapped d idx ((idx - 1) / 2)) :=
          swap_ok hidx hpd
        set p := (idx - 1) / 2 with hp
        set s := swapped d idx p with hsdef
        have hslen : s.length = d.length := swapped_length d idx p
        have hpi : p ≠ idx := by omega
        have hgs_idx : get_value s idx = get_value d p :=
          get_value_swapped_fst (fun hc => hpi hc.symm) hidx
        have hgs_p : get_value s p = get_value d idx := get_value_swapped_snd hpd
        have hgs_other : ∀ kk, kk ≠ idx → kk ≠ p → get_value s kk = get_value d kk :=
          fun kk hki hkp => get_value_swapped_other hki hkp
        have h1s : ∀ i, 0 < i → i < s.length → i ≠ p →
            pyLe (get_value s ((i - 1) / 2)) (get_value s i) = true := by
          intro i hi0 hislen hip
          have hilen : i < d.length := by omega
          by_cases hii : i = idx
          · subst hii
            rw [← hp, hgs_idx, hgs_p]
            exact pyLe_of_pyLt hcmp
          · have hgi : get_value s i = get_value d i := hgs_other i hii hip
            by_cases hq1 : (i - 1) / 2 = idx
            · rw [hq1, hgs_idx, hgi]
              exact h2 i hilen hi0 hq1 h0
            · by_cases hq2 : (i - 1) / 2 = p
              · rw [hq2, hgs_p, hgi]
                have e1 := h1 i hi0 hilen hii
                rw [hq2] at e1
                exact pyLe_trans (pyLe_of_pyLt hcmp) e1
              · rw [hgs_other _ hq1 hq2, hgi]
                exact h1 i hi0 hilen hii
        have h2s : ∀ c, c < s.length → 0 < c → (c - 1) / 2 = p → p ≠ 0 →
            pyLe (get_value s ((p - 1) / 2)) (get_value s c) = true := by
          intro c hcslen hc0 hcp hp0
          have hclen : c < d.length := by omega
          have hppi : (p - 1) / 2 ≠ idx := by omega
          have hppp : (p - 1) / 2 ≠ p := by omega
          rw [hgs_other _ hppi hppp]
          have hpp_edge : pyLe (get_value d ((p - 1) / 2)) (get_value d p) = true :=
            h1 p (by omega) hpd hpi
          by_cases hcc : c = idx
          · subst hcc
            rw [hgs_idx]
            exact hpp_edge
          · have hcnp : c ≠ p := by omega
            rw [hgs_other _ hcc hcnp]
            have hc_edge := h1 c hc0 hclen hcc
            rw [hcp] at hc_edge
            exact pyLe_trans hpp_edge hc_edge
        obtain ⟨d2, hrun, hperm, hheap⟩ := IH p hplt s (by omega) h1s h2s
        refine ⟨d2, ?_, hperm.trans (swapped_perm hidx hpd), hheap⟩
        rw [bubble_up_swap_step h0 hcmp hsw]
        exact hrun

/-! ### Sift-down restores the heap invariant

The precondition: every parent/child edge holds except possibly the edges
from slot `k` to its children, and the parent of `k` is already below the
children of `k`. -/

theorem bubble_down_spec :
    ∀ (n : Nat) (d : List Entry) (k : Nat), d.length - k < n → allSome d →
    (∀ i, 0 < i → i < d.length → (i - 1) / 2 ≠ k →
      pyLe (get_value d ((i - 1) / 2)) (get_value d i) = true) →
    (∀ c, c < d.length → 0 < c → (c - 1) / 2 = k → k ≠ 0 →
      pyLe (get_value d ((k - 1) / 2)) (get_value d c) = true) →
    ∃ d2, bubble_down d k = .ok () d2 ∧ d2.Perm d ∧ isHeap d2 := by
  intro n
  induction n with
  | zero =>
    intro d k hn
    exact absurd hn (by omega)
  | succ n IH =>
    intro d k hn hall h1 h2
    by_cases hstop : get_value d (get_left_idx k) = none ∧
        get_value d (get_right_idx k) = none
    · refine ⟨d, bubble_down_stop hstop.1 hstop.2, List.Perm.refl d, ?_⟩
      intro i hi0 hilen
      by_cases hpar : (i - 1) / 2 = k
      · exfalso
        have hchild : i = get_left_idx k ∨ i = get_right_idx k := by
          simp only [get_left_idx, get_right_idx]
          omega
        have hne := allSome_get_value hall hilen
        rcases hchild with hc | hc
        · rw [hc] at hne
          exact hne hstop.1
        · rw [hc] at hne
          exact hne hstop.2
      · exact h1 i hi0 hilen hpar
    · have hsc_lt : (smaller_child d k).1 < d.length := smaller_child_lt_length hstop
      have hsc_gt : k < (smaller_child d k).1 := smaller_child_gt d k
      have hsnd : (smaller_child d k).2 = get_value d (smaller_child d k).1 :=
        smaller_child_snd d k
      have hm_cases : (smaller_child d k).1 = get_left_idx k ∨
          (smaller_child d k).1 = get_right_idx k := by
        rcases smaller_child_cases d k with hc | hc
        · left; rw [hc]
        · right; rw [hc]
      have hpar_m : ((smaller_child d k).1 - 1) / 2 = k := by
        rcases hm_cases with hc | hc <;>
          rw [hc] <;> simp only [get_left_idx, get_right_idx] <;> omega
      by_cases hgt : pyGt (get_value d k) (smaller_child d k).2 = true
      case neg =>
        have hgf : pyGt (get_value d k) (smaller_child d k).2 = false := by
          simpa using hgt
        refine ⟨d, bubble_down_noswap hstop hgf, List.Perm.refl d, ?_⟩
        intro i hi0 hilen
        by_cases hpar : (i - 1) / 2 = k
        · have hk_le_sc : pyLe (get_value d k) (smaller_child d k).2 = true :=
            pyLe_of_not_pyGt hgf
          have hchild : i = get_left_idx k ∨ i = get_right_idx k := by
            simp only [get_left_idx, get_right_idx]
            omega
          rw [hpar]
          rcases hchild with hc | hc
          · rw [hc]
            exact pyLe_trans hk_le_sc (smaller_child_min_left d k)
          · have hrne : get_value d (get_right_idx k) ≠ none := by
              rw [← hc]
              exact allSome_get_value hall hilen
            rw [hc]
            exact pyLe_trans hk_le_sc (smaller_child_min_right hrne)
        · exact h1 i hi0 hilen hpar
      case pos =>
        have hk_lt : k < d.length := lt_length_of_pyGt hgt
        have hsw := swap_ok hk_lt hsc_lt
        have hkm : k ≠ (smaller_child d k).1 := by omega
        have hslen : (swapped d k (smaller_child d k).1).length = d.length :=
          swapped_length d k (smaller_child d k).1
        have hgs_k : get_value (swapped d k (smaller_child d k).1) k
            = get_value d (smaller_child d k).1 :=
          get_value_swapped_fst hkm hk_lt
        have hgs_m : get_value (swapped d k (smaller_child d k).1) (smaller_child d k).1
            = get_value d k :=
          get_value_swapped_snd hsc_lt
        have hgs_other : ∀ kk, kk ≠ k → kk ≠ (smaller_child d k).1 →
            get_value (swapped d k (smaller_child d k).1) kk = get_value d kk :=
          fun kk ha hb => get_value_swapped_other ha hb
        have halls : allSome (swapped d k (smaller_child d k).1) :=
          fun x hx => hall x ((swapped_perm hk_lt hsc_lt).mem_iff.1 hx)
        have hmlt : pyLt (get_value d (smaller_child d k).1) (get_value d k) = true := by
          have hgt2 := hgt
          rw [pyGt, hsnd] at hgt2
          exact hgt2
        have h1s : ∀ i, 0 < i → i < (swapped d k (smaller_child d k).1).length →
            (i - 1) / 2 ≠ (smaller_child d k).1 →
            pyLe (get_value (swapped d k (smaller_child d k).1) ((i - 1) / 2))
              (get_value (swapped d k (smaller_child d k).1) i) = true := by
          intro i hi0 hislen him
          have hilen : i < d.length := by omega
          by_cases hieq : i = (smaller_child d k).1
          · subst hieq
            rw [hpar_m, hgs_k, hgs_m]
            exact pyLe_of_pyLt hmlt
          · by_cases hik : i = k
            · have hq1 : (k - 1) / 2 ≠ k := by omega
              have hq2 : (k - 1) / 2 ≠ (smaller_child d k).1 := by omega
              rw [hik, hgs_other _ hq1 hq2, hgs_k]
              exact h2 (smaller_child d k).1 hsc_lt (by omega) hpar_m (by omega)
            · have hgi : get_value (swapped d k (smaller_child d k).1) i
                  = get_value d i := hgs_other i hik hieq
              by_cases hq : (i - 1) / 2 = k
              · rw [hq, hgs_k, hgi]
                have hchild : i = get_left_idx k ∨ i = get_right_idx k := by
                  simp only [get_left_idx, get_right_idx]
                  omega
                rcases hchild with hc | hc
                · rw [hc, ← hsnd]
                  exact smaller_child_min_left d k
                · rw [hc, ← hsnd]
                  apply smaller_child_min_right
                  have hrl : get_right_idx k < d.length := by
                    rw [← hc]
                    exact hilen
                  exact allSome_get_value hall hrl
              · rw [hgs_other _ hq him, hgi]
                exact h1 i hi0 hilen hq
        have h2s : ∀ c, c < (swapped d k (smaller_child d k).1).length → 0 < c →
            (c - 1) / 2 = (smaller_child d k).1 → (smaller_child d k).1 ≠ 0 →
            pyLe (get_value (swapped d k (smaller_child d k).1)
                (((smaller_child d k).1 - 1) / 2))
              (get_value (swapped d k (smaller_child d k).1) c) = true := by
          intro c hcs hc0 hcm hm0
          rw [hpar_m, hgs_k]
          have hclen : c < d.length := by omega
          have hck : c ≠ k := by omega
          have hcm2 : c ≠ (smaller_child d k).1 := by omega
          rw [hgs_other _ hck hcm2]
          have hedge := h1 c hc0 hclen (by omega)
          rw [hcm] at hedge
          exact hedge
        obtain ⟨d2, hrun, hperm, hheap⟩ :=
          IH (swapped d k (smaller_child d k).1) (smaller_child d k).1
            (by omega) halls h1s h2s
        refine ⟨d2, ?_, hperm.trans (swapped_perm hk_lt hsc_lt), hheap⟩
        rw [bubble_down_swap_step hstop hgt hsw]
        exact hrun

/-! ### Error-propagation unfoldings and totality of the sift routines -/

theorem bubble_up_swap_err {d d1 : List Entry} {idx : Nat} {e : Error}
    (h0 : idx ≠ 0)
    (hcmp : pyLt (get_value d idx) (get_value d ((idx - 1) / 2)) = true)
    (hsw : swap d idx ((idx - 1) / 2) = .err e d1) :
    bubble_up d idx = .err e d1 := by
  rw [bubble_up, if_neg h0]
  split
  next e2 h => simp [get_parent_idx, h0] at h
  next p h =>
    simp only [get_parent_idx, if_neg h0, Except.ok.injEq] at h
    subst h
    rw [if_pos hcmp]
    split
    next a d2 hmatch =>
      rw [hsw] at hmatch
      exact absurd hmatch (by simp)
    next e2 d2 hmatch =>
      rw [hsw] at hmatch
      simp only [Res.err.injEq] at hmatch
      rw [hmatch.1, hmatch.2]

theorem bubble_down_swap_err {d d1 : List Entry} {k : Nat} {e : Error}
    (hst : ¬(get_value d (get_left_idx k) = none ∧
      get_value d (get_right_idx k) = none))
    (hgt : pyGt (get_value d k) (smaller_child d k).2 = true)
    (hsw : swap d k (smaller_child d k).1 = .err e d1) :
    bubble_down d k = .err e d1 := by
  rw [bubble_down]
  rw [if_neg hst, if_pos hgt]
  split
  next a d2 hmatch =>
    rw [hsw] at hmatch
    exact absurd hmatch (by simp)
  next e2 d2 hmatch =>
    rw [hsw] at hmatch
    simp only [Res.err.injEq] at hmatch
    rw [hmatch.1, hmatch.2]

theorem swap_ok_inv {d d1 : List Entry} {i j : Nat} {a : Unit}
    (h : swap d i j = .ok a d1) :
    i < d.length ∧ j < d.length ∧ d1 = swapped d i j := by
  simp only [swap, set_value] at h
  split at h
  next a2 dmid c1 =>
    split at c1
    next => exact absurd c1 (by simp)
    next cond1 =>
      split at h
      next cond2 => exact absurd h (by simp)
      next cond2 =>
        simp only [Res.ok.injEq] at c1 h
        have hmid : dmid = d.set i (get_value d j) := c1.2.symm
        have hmlen : dmid.length = d.length := by
          rw [hmid]
          simp
        refine ⟨by omega, by omega, ?_⟩
        rw [← h.2, hmid]
        rfl
  next e2 dmid c1 => exact absurd h (by simp)

theorem root_min {d : List Entry} (hheap : isHeap d) :
    ∀ i, i < d.length → pyLe (get_value d 0) (get_value d i) = true := by
  intro i
  induction i using Nat.strong_induction_on with
  | _ i IH =>
    intro hi
    by_cases h0 : i = 0
    · subst h0
      exact pyLe_refl _
    · have hp : (i - 1) / 2 < i := by omega
      exact pyLe_trans (IH _ hp (by omega)) (hheap i (by omega) hi)

theorem bubble_up_ok (idx : Nat) :
    ∀ d : List Entry, idx < d.length →
    ∃ d2, bubble_up d idx = .ok () d2 ∧ d2.Perm d := by
  induction idx using Nat.strong_induction_on with
  | _ idx IH =>
    intro d hidx
    by_cases h0 : idx = 0
    · subst h0
      exact ⟨d, bubble_up_zero d, List.Perm.refl d⟩
    · have hplt : (idx - 1) / 2 < idx := by omega
      have hpd : (idx - 1) / 2 < d.length := lt_trans hplt hidx
      by_cases hcmp : pyLt (get_value d idx) (get_value d ((idx - 1) / 2)) = true
      · have hsw := swap_ok hidx hpd
        obtain ⟨d2, hrun, hperm⟩ := IH _ hplt (swapped d idx ((idx - 1) / 2))
          (by rw [swapped_length]; exact hpd)
        refine ⟨d2, ?_, hperm.trans (swapped_perm hidx hpd)⟩
        rw [bubble_up_swap_step h0 hcmp hsw]
        exact hrun
      · exact ⟨d, bubble_up_noswap h0 (by simpa using hcmp), List.Perm.refl d⟩

theorem bubble_down_ok :
    ∀ (n : Nat) (d : List Entry) (k : Nat), d.length - k < n →
    ∃ d2, bubble_down d k = .ok () d2 ∧ d2.Perm d := by
  intro n
  induction n with
  | zero =>
    intro d k hn
    exact absurd hn (by omega)
  | succ n IH =>
    intro d k hn
    by_cases hstop : get_value d (get_left_idx k) = none ∧
        get_value d (get_right_idx k) = none
    · exact ⟨d, bubble_down_stop hstop.1 hstop.2, List.Perm.refl d⟩
    · by_cases hgt : pyGt (get_value d k) (smaller_child d k).2 = true
      · have hk_lt : k < d.length := lt_length_of_pyGt hgt
        have hsc_lt : (smaller_child d k).1 < d.length := smaller_child_lt_length hstop
        have hsc_gt : k < (smaller_child d k).1 := smaller_child_gt d k
        have hsw := swap_ok hk_lt hsc_lt
        have hslen : (swapped d k (smaller_child d k).1).length = d.length :=
          swapped_length d k (smaller_child d k).1
        obtain ⟨d2, hrun, hperm⟩ :=
          IH (swapped d k (smaller_child d k).1) (smaller_child d k).1 (by omega)
        refine ⟨d2, ?_, hperm.trans (swapped_perm hk_lt hsc_lt)⟩
        rw [bubble_down_swap_step hstop hgt hsw]
        exact hrun
      · exact ⟨d, bubble_down_noswap hstop (by simpa using hgt), List.Perm.refl d⟩

/-! ### The `push` operation -/

theorem push_single_num_ok (d : List Entry) (v : Val) :
    ∃ d2, push_single d (.num v) = .ok () d2 ∧ d2.Perm (d ++ [some v]) := by
  have hlen : (d ++ [some v]).length - 1 < (d ++ [some v]).length := by simp
  obtain ⟨d2, hrun, hperm⟩ :=
    bubble_up_ok ((d ++ [some v]).length - 1) (d ++ [some v]) hlen
  exact ⟨d2, hrun, hperm⟩

theorem push_single_spec {d : List Entry} (hheap : isHeap d) (hall : allSome d)
    (v : Val) :
    ∃ d2, push_single d (.num v) = .ok () d2 ∧ d2.Perm (d ++ [some v]) ∧
      isHeap d2 ∧ allSome d2 := by
  have h1 : ∀ i, 0 < i → i < (d ++ [some v]).length →
      i ≠ (d ++ [some v]).length - 1 →
      pyLe (get_value (d ++ [some v]) ((i - 1) / 2))
        (get_value (d ++ [some v]) i) = true := by
    intro i hi0 hil hine
    simp only [List.length_append, List.length_singleton] at hil hine
    have hid : i < d.length := by omega
    have hpd : (i - 1) / 2 < d.length := by omega
    rw [get_value_append_lt hpd, get_value_append_lt hid]
    exact hheap i hi0 hid
  have h2 : ∀ c, c < (d ++ [some v]).length → 0 < c →
      (c - 1) / 2 = (d ++ [some v]).length - 1 →
      (d ++ [some v]).length - 1 ≠ 0 →
      pyLe (get_value (d ++ [some v]) (((d ++ [some v]).length - 1 - 1) / 2))
        (get_value (d ++ [some v]) c) = true := by
    intro c hc hc0 hcp hne
    exfalso
    simp only [List.length_append, List.length_singleton] at hc hcp
    omega
  obtain ⟨d2, hrun, hperm, hheap2⟩ :=
    bubble_up_spec ((d ++ [some v]).length - 1) (d ++ [some v]) (by simp) h1 h2
  refine ⟨d2, hrun, hperm, hheap2, ?_⟩
  intro x hx
  have hx2 : x ∈ d ++ [some v] := hperm.mem_iff.1 hx
  rcases List.mem_append.1 hx2 with hmem | hmem
  · exact hall x hmem
  · simp only [List.mem_singleton] at hmem
    subst hmem
    exact Option.some_ne_none v

theorem push_single_invalid (d : List Entry) {r : RawValue}
    (h : toFloat r = .error .invalidValue) :
    push_single d r = .err .invalidValue d := by
  unfold push_single
  rw [h]

/-! ### The `pop` operation -/

theorem pop_empty_eq : pop ([] : List Entry) = .err .emptyHeap [] := rfl

theorem pop_singleton (e : Entry) : pop [e] = .ok e [] := rfl

theorem pop_eq_of_two_le {d : List Entry} (hlen : 2 ≤ d.length) :
    pop d = match bubble_down (swapped d 0 (d.length - 1)).dropLast 0 with
      | .err e d3 => .err e d3
      | .ok _ d3 => .ok ((swapped d 0 (d.length - 1)).getLast?.join) d3 := by
  have h0 : d.length ≠ 0 := by omega
  have h1 : d.length ≠ 1 := by omega
  have hsw : swap d 0 (d.length - 1) = .ok () (swapped d 0 (d.length - 1)) :=
    swap_ok (by omega) (by omega)
  unfold pop
  dsimp only
  rw [if_neg h0, if_neg h1, hsw]

theorem swapped_getLast {d : List Entry} (hlen : 2 ≤ d.length) :
    (swapped d 0 (d.length - 1)).getLast? = some (get_value d 0) := by
  have hslen : (swapped d 0 (d.length - 1)).length = d.length :=
    swapped_length d 0 (d.length - 1)
  have hl : (swapped d 0 (d.length - 1)).length - 1 <
      (swapped d 0 (d.length - 1)).length := by omega
  have h1 : get_value (swapped d 0 (d.length - 1))
      ((swapped d 0 (d.length - 1)).length - 1) = get_value d 0 := by
    rw [hslen]
    exact get_value_swapped_snd (by omega)
  rw [List.getLast?_eq_getElem?, List.getElem?_eq_getElem hl, ← h1, get_value_lt hl]

theorem swapped_getLast_join {d : List Entry} (hlen : 2 ≤ d.length) :
    (swapped d 0 (d.length - 1)).getLast?.join = get_value d 0 := by
  rw [swapped_getLast hlen]
  rfl

theorem swapped_dropLast_perm {d : List Entry} (hlen : 2 ≤ d.length) :
    (get_value d 0 :: (swapped d 0 (d.length - 1)).dropLast).Perm d := by
  have hsplit : (swapped d 0 (d.length - 1)).dropLast ++ [get_value d 0]
      = swapped d 0 (d.length - 1) :=
    List.dropLast_append_getLast? _ (Option.mem_def.2 (swapped_getLast hlen))
  have hperm : (get_value d 0 :: (swapped d 0 (d.length - 1)).dropLast).Perm
      ((swapped d 0 (d.length - 1)).dropLast ++ [get_value d 0]) :=
    (List.perm_append_singleton _ _).symm
  rw [hsplit] at hperm
  exact hperm.trans (swapped_perm (by omega) (by omega))

theorem pop_ok {d : List Entry} (hne : d ≠ []) :
    ∃ v d2, pop d = .ok v d2 ∧ (v :: d2).Perm d := by
  rcases Nat.lt_or_ge d.length 2 with hlt | hge
  · have h1 : d.length = 1 := by
      have := List.length_pos.2 hne
      omega
    obtain ⟨e, rfl⟩ := List.length_eq_one.1 h1
    exact ⟨e, [], pop_singleton e, List.Perm.refl [e]⟩
  · obtain ⟨d3, hrun, hperm⟩ := bubble_down_ok
      (((swapped d 0 (d.length - 1)).dropLast).length + 1)
      ((swapped d 0 (d.length - 1)).dropLast) 0 (by omega)
    refine ⟨(swapped d 0 (d.length - 1)).getLast?.join, d3, ?_, ?_⟩
    · rw [pop_eq_of_two_le hge, hrun]
    · rw [swapped_getLast_join hge]
      exact (List.Perm.cons _ hperm).trans (swapped_dropLast_perm hge)

theorem pop_spec {d : List Entry} (hheap : isHeap d) (hall : allSome d)
    (hne : d ≠ []) :
    ∃ v d2, pop d = .ok v d2 ∧ v = get_value d 0 ∧ (v :: d2).Perm d ∧
      isHeap d2 ∧ allSome d2 ∧ ∀ x ∈ d, pyLe v x = true := by
  have hmin : ∀ x ∈ d, pyLe (get_value d 0) x = true := by
    intro x hx
    obtain ⟨i, hi, hgx⟩ := mem_of_get_value hx
    rw [← hgx]
    exact root_min hheap i hi
  rcases Nat.lt_or_ge d.length 2 with hlt | hge
  · have h1 : d.length = 1 := by
      have := List.length_pos.2 hne
      omega
    obtain ⟨e, rfl⟩ := List.length_eq_one.1 h1
    have h0 : (0 : Nat) < ([e] : List Entry).length := by simp
    refine ⟨e, [], pop_singleton e, ?_, List.Perm.refl [e], ?_, ?_, ?_⟩
    · rw [get_value_lt h0]
      rfl
    · intro i hi0 hil
      simp only [List.length_nil] at hil
      omega
    · intro x hx
      simp at hx
    · intro x hx
      have hh := hmin x hx
      rwa [get_value_lt h0] at hh
  · have hslen := swapped_length d 0 (d.length - 1)
    have hdl : ((swapped d 0 (d.length - 1)).dropLast).length = d.length - 1 := by
      rw [List.length_dropLast, hslen]
    have hall2 : allSome ((swapped d 0 (d.length - 1)).dropLast) := by
      intro x hx
      have hx2 : x ∈ swapped d 0 (d.length - 1) :=
        List.Sublist.mem hx (List.dropLast_sublist _)
      exact hall x ((swapped_perm (by omega) (by omega)).mem_iff.1 hx2)
    have h1 : ∀ i, 0 < i → i < ((swapped d 0 (d.length - 1)).dropLast).length →
        (i - 1) / 2 ≠ 0 →
        pyLe (get_value ((swapped d 0 (d.length - 1)).dropLast) ((i - 1) / 2))
          (get_value ((swapped d 0 (d.length - 1)).dropLast) i) = true := by
      intro i hi0 hil hq
      rw [hdl] at hil
      have hq0 : 0 < (i - 1) / 2 := by omega
      have hqlt : (i - 1) / 2 < i := by omega
      have e1 : get_value ((swapped d 0 (d.length - 1)).dropLast) i
          = get_value d i := by
        rw [get_value_dropLast (by omega)]
        exact get_value_swapped_other (by omega) (by omega)
      have e2 : get_value ((swapped d 0 (d.length - 1)).dropLast) ((i - 1) / 2)
          = get_value d ((i - 1) / 2) := by
        rw [get_value_dropLast (by omega)]
        exact get_value_swapped_other (by omega) (by omega)
      rw [e1, e2]
      exact hheap i hi0 (by omega)
    have h2 : ∀ c, c < ((swapped d 0 (d.length - 1)).dropLast).length → 0 < c →
        (c - 1) / 2 = 0 → (0 : Nat) ≠ 0 →
        pyLe (get_value ((swapped d 0 (d.length - 1)).dropLast) ((0 - 1) / 2))
          (get_value ((swapped d 0 (d.length - 1)).dropLast) c) = true := by
      intro c hc1 hc2 hc3 hc4
      exact absurd rfl hc4
    obtain ⟨d3, hrun, hperm, hheap3⟩ := bubble_down_spec
      (((swapped d 0 (d.length - 1)).dropLast).length + 1)
      ((swapped d 0 (d.length - 1)).dropLast) 0 (by omega) hall2 h1 h2
    refine ⟨(swapped d 0 (d.length - 1)).getLast?.join, d3, ?_,
      swapped_getLast_join hge, ?_, hheap3, ?_, ?_⟩
    · rw [pop_eq_of_two_le hge, hrun]
    · rw [swapped_getLast_join hge]
      exact (List.Perm.cons _ hperm).trans (swapped_dropLast_perm hge)
    · intro x hx
      exact hall2 x (hperm.mem_iff.1 hx)
    · intro x hx
      have hh := hmin x hx
      rwa [← swapped_getLast_join hge] at hh

/-! ### List pushes, invariant preservation across public calls -/

theorem pyLt_irrefl (a : Entry) : pyLt a a = false := by
  cases a <;> simp [pyLt]

theorem isHeap_nil : isHeap ([] : List Entry) := by
  intro i hi0 hil
  simp only [List.length_nil] at hil
  omega

theorem allSome_nil : allSome ([] : List Entry) := by
  intro x hx
  simp at hx

theorem push_list_cons_ok {d d2 : List Entry} {r : RawValue} (rs : List RawValue)
    (h : push_single d r = .ok () d2) :
    push_list d (r :: rs) = push_list d2 rs := by
  simp only [push_list]
  rw [h]

theorem push_list_cons_err {d d2 : List Entry} {r : RawValue} {e : Error}
    (rs : List RawValue) (h : push_single d r = .err e d2) :
    push_list d (r :: rs) = .err e d2 := by
  simp only [push_list]
  rw [h]

theorem push_seq_spec_cons_ok {d d2 : List Entry} {r : RawValue} (rs : List RawValue)
    (h : push_single d r = .ok () d2) :
    push_seq_spec d (r :: rs) = push_seq_spec d2 rs := by
  simp only [push_seq_spec, push]
  rw [h]

theorem push_seq_spec_cons_err {d d2 : List Entry} {r : RawValue} {e : Error}
    (rs : List RawValue) (h : push_single d r = .err e d2) :
    push_seq_spec d (r :: rs) = .err e d2 := by
  simp only [push_seq_spec, push]
  rw [h]

theorem push_list_inv : ∀ (rs : List RawValue) (d : List Entry),
    isHeap d → allSome d →
    isHeap (resState (push_list d rs)) ∧ allSome (resState (push_list d rs)) := by
  intro rs
  induction rs with
  | nil =>
    intro d hh ha
    exact ⟨hh, ha⟩
  | cons r rs ih =>
    intro d hh ha
    cases r with
    | num v =>
      obtain ⟨d2, hrun, _, hh2, ha2⟩ := push_single_spec hh ha v
      rw [push_list_cons_ok rs hrun]
      exact ih d2 hh2 ha2
    | invalid =>
      rw [push_list_cons_err rs (@push_single_invalid d RawValue.invalid rfl)]
      exact ⟨hh, ha⟩

theorem applyOp_inv {d : List Entry} (hh : isHeap d) (ha : allSome d) (op : Op) :
    isHeap (applyOp d op) ∧ allSome (applyOp d op) := by
  cases op with
  | push arg =>
    cases arg with
    | single r =>
      cases r with
      | num v =>
        obtain ⟨d2, hrun, _, hh2, ha2⟩ := push_single_spec hh ha v
        simp only [applyOp, push]
        rw [hrun]
        exact ⟨hh2, ha2⟩
      | invalid =>
        simp only [applyOp, push]
        rw [@push_single_invalid d RawValue.invalid rfl]
        exact ⟨hh, ha⟩
    | list rs =>
      simp only [applyOp, push]
      exact push_list_inv rs d hh ha
  | pop =>
    by_cases hne : d = []
    · subst hne
      simp only [applyOp]
      rw [pop_empty_eq]
      exact ⟨hh, ha⟩
    · obtain ⟨v, d2, hrun, _, _, hh2, ha2, _⟩ := pop_spec hh ha hne
      simp only [applyOp]
      rw [hrun]
      exact ⟨hh2, ha2⟩

theorem runOps_inv : ∀ (ops : List Op) (d : List Entry), isHeap d → allSome d →
    isHeap (runOps d ops) ∧ allSome (runOps d ops) := by
  intro ops
  induction ops with
  | nil =>
    intro d hh ha
    exact ⟨hh, ha⟩
  | cons op rest ih =>
    intro d hh ha
    obtain ⟨hh2, ha2⟩ := applyOp_inv hh ha op
    exact ih _ hh2 ha2

/-! ### Size tracking -/

theorem runSOps_length : ∀ (ops : List SOp) (d d2 : List Entry),
    runSOps d ops = some d2 →
    d2.length + countPop ops = d.length + countPush ops := by
  intro ops
  induction ops with
  | nil =>
    intro d d2 h
    simp only [runSOps, Option.some.injEq] at h
    subst h
    simp [countPush, countPop]
  | cons op rest ih =>
    intro d d2 h
    cases op with
    | push v =>
      obtain ⟨dmid, hrun, hperm⟩ := push_single_num_ok d v
      have hrun2 : push d (.single (.num v)) = .ok () dmid := hrun
      simp only [runSOps] at h
      rw [hrun2] at h
      have hrest := ih dmid d2 h
      have hlen : dmid.length = d.length + 1 := by
        have := hperm.length_eq
        simpa using this
      simp only [countPush, countPop]
      omega
    | pop =>
      simp only [runSOps] at h
      cases hpop : pop d with
      | ok v d1 =>
        rw [hpop] at h
        have hne : d ≠ [] := by
          intro hd
          subst hd
          rw [pop_empty_eq] at hpop
          exact absurd hpop (by simp)
        obtain ⟨v2, d22, hrun2, hperm2⟩ := pop_ok hne
        rw [hpop] at hrun2
        simp only [Res.ok.injEq] at hrun2
        have hlen : d1.length + 1 = d.length := by
          have hl := hperm2.length_eq
          rw [← hrun2.2] at hl
          simpa using hl
        have hrest := ih d1 d2 h
        simp only [countPush, countPop]
        omega
      | err e d1 =>
        rw [hpop] at h
        simp at h

/-! ### Sorted extraction -/

theorem popN_sorted : ∀ (n : Nat) (d : List Entry), isHeap d → allSome d →
    n = d.length →
    ∃ ys, popN d n = some ys ∧ ys.Perm d ∧
      List.Pairwise (fun a b => pyLe a b = true) ys := by
  intro n
  induction n with
  | zero =>
    intro d hh ha hlen
    have hd : d = [] := List.length_eq_zero.1 hlen.symm
    subst hd
    exact ⟨[], rfl, List.Perm.refl [], List.Pairwise.nil⟩
  | succ n ih =>
    intro d hh ha hlen
    have hne : d ≠ [] := by
      intro h
      subst h
      simp at hlen
    obtain ⟨v, d2, hrun, hv, hperm, hh2, ha2, hmin⟩ := pop_spec hh ha hne
    have hlen2 : n = d2.length := by
      have := hperm.length_eq
      simp at this
      omega
    obtain ⟨ys, hys, hysperm, hsorted⟩ := ih d2 hh2 ha2 hlen2
    refine ⟨v :: ys, ?_, ?_, ?_⟩
    · simp only [popN]
      rw [hrun]
      dsimp only
      rw [hys]
      rfl
    · exact (List.Perm.cons v hysperm).trans hperm
    · rw [List.pairwise_cons]
      refine ⟨?_, hsorted⟩
      intro b hb
      have hb2 : b ∈ d2 := hysperm.mem_iff.1 hb
      have hbd : b ∈ d := hperm.mem_iff.1 (List.mem_cons_of_mem v hb2)
      exact hmin b hbd

theorem push_list_num_spec : ∀ (vs : List Val) (d : List Entry),
    isHeap d → allSome d →
    ∃ d2, push_list d (vs.map RawValue.num) = .ok () d2 ∧
      d2.Perm (d ++ vs.map some) ∧ isHeap d2 ∧ allSome d2 := by
  intro vs
  induction vs with
  | nil =>
    intro d hh ha
    exact ⟨d, rfl, by simp, hh, ha⟩
  | cons v vs ih =>
    intro d hh ha
    obtain ⟨dmid, hrun, hperm, hh2, ha2⟩ := push_single_spec hh ha v
    obtain ⟨d2, hrun2, hperm2, hh3, ha3⟩ := ih dmid hh2 ha2
    refine ⟨d2, ?_, ?_, hh3, ha3⟩
    · simp only [List.map_cons]
      rw [push_list_cons_ok _ hrun]
      exact hrun2
    · have hap : (dmid ++ vs.map some).Perm ((d ++ [some v]) ++ vs.map some) :=
        hperm.append_right _
      have heq : (d ++ [some v]) ++ vs.map some = d ++ (v :: vs).map some := by
        simp
      rw [heq] at hap
      exact hperm2.trans hap

/-! ### Internal errors are unreachable from the public operations -/

theorem push_list_not_internal : ∀ (rs : List RawValue) (d : List Entry),
    hitsInternal (push_list d rs) = false := by
  intro rs
  induction rs with
  | nil =>
    intro d
    rfl
  | cons r rest ih =>
    intro d
    cases r with
    | num v =>
      obtain ⟨d2, hrun, _⟩ := push_single_num_ok d v
      rw [push_list_cons_ok _ hrun]
      exact ih d2
    | invalid =>
      rw [push_list_cons_err _ (@push_single_invalid d RawValue.invalid rfl)]
      rfl

theorem push_not_internal (d : List Entry) (arg : PushArg) :
    hitsInternal (push d arg) = false := by
  cases arg with
  | single r =>
    cases r with
    | num v =>
      obtain ⟨d2, hrun, _⟩ := push_single_num_ok d v
      show hitsInternal (push_single d (.num v)) = false
      rw [hrun]
      rfl
    | invalid =>
      show hitsInternal (push_single d .invalid) = false
      rw [@push_single_invalid d RawValue.invalid rfl]
      rfl
  | list rs =>
    exact push_list_not_internal rs d

theorem pop_not_internal (d : List Entry) : hitsInternal (pop d) = false := by
  by_cases hne : d = []
  · subst hne
    rw [pop_empty_eq]
    rfl
  · obtain ⟨v, d2, hrun, _⟩ := pop_ok hne
    rw [hrun]
    rfl

/-! ### Fueled versions agree with the sift routines -/

theorem bubble_up_fuel_eq : ∀ (fuel idx : Nat) (d : List Entry), idx < fuel →
    bubble_up_fuel fuel d idx = some (bubble_up d idx) := by
  intro fuel
  induction fuel with
  | zero =>
    intro idx d h
    exact absurd h (by omega)
  | succ fuel ih =>
    intro idx d h
    by_cases h0 : idx = 0
    · subst h0
      rw [bubble_up_zero]
      rfl
    · simp only [bubble_up_fuel, if_neg h0, get_parent_idx]
      by_cases hcmp : pyLt (get_value d idx) (get_value d ((idx - 1) / 2)) = true
      · rw [if_pos hcmp]
        cases hsw : swap d idx ((idx - 1) / 2) with
        | ok a d1 =>
          cases a
          rw [bubble_up_swap_step h0 hcmp hsw]
          exact ih ((idx - 1) / 2) d1 (by omega)
        | err e d1 =>
          rw [bubble_up_swap_err h0 hcmp hsw]
      · rw [if_neg hcmp, bubble_up_noswap h0 (by simpa using hcmp)]

theorem bubble_down_fuel_eq : ∀ (fuel : Nat) (d : List Entry) (k : Nat),
    d.length - k < fuel →
    bubble_down_fuel fuel d k = some (bubble_down d k) := by
  intro fuel
  induction fuel with
  | zero =>
    intro d k h
    exact absurd h (by omega)
  | succ fuel ih =>
    intro d k h
    by_cases hstop : get_value d (get_left_idx k) = none ∧
        get_value d (get_right_idx k) = none
    · rw [bubble_down_stop hstop.1 hstop.2]
      simp only [bubble_down_fuel, if_pos hstop]
    · simp only [bubble_down_fuel, if_neg hstop]
      by_cases hgt : pyGt (get_value d k) (smaller_child d k).2 = true
      · rw [if_pos hgt]
        cases hsw : swap d k (smaller_child d k).1 with
        | ok a d1 =>
          cases a
          obtain ⟨hk, hsc, hd1⟩ := swap_ok_inv hsw
          rw [bubble_down_swap_step hstop hgt hsw]
          have hlen : d1.length = d.length := by
            rw [hd1]
            exact swapped_length d k (smaller_child d k).1
          have hgtk := smaller_child_gt d k
          exact ih d1 (smaller_child d k).1 (by omega)
        | err e d1 =>
          rw [bubble_down_swap_err hstop hgt hsw]
      · rw [if_neg hgt, bubble_down_noswap hstop (by simpa using hgt)]

/-! ### Batch push stops at the first bad element, keeping earlier pushes -/

theorem push_list_stops_at_bad : ∀ (j : Nat) (rs : List RawValue)
    (d : List Entry) (hj : j < rs.length),
    toFloat rs[j] = .error .invalidValue →
    (∀ i, i < j → ∀ (hilen : i < rs.length),
      toFloat (rs.get ⟨i, hilen⟩) ≠ .error .invalidValue) →
    ∃ d2, push_list d rs = .err .invalidValue d2 ∧
      push_list d (rs.take j) = .ok () d2 ∧ d2.length = d.length + j := by
  intro j
  induction j with
  | zero =>
    intro rs d hj hbad hgood
    cases rs with
    | nil => simp at hj
    | cons r rest =>
      refine ⟨d, ?_, rfl, by omega⟩
      exact push_list_cons_err _ (push_single_invalid d hbad)
  | succ j ih =>
    intro rs d hj hbad hgood
    cases rs with
    | nil => simp at hj
    | cons r rest =>
      have hr : ∃ v, r = RawValue.num v := by
        cases r with
        | num v => exact ⟨v, rfl⟩
        | invalid =>
          exact absurd rfl (hgood 0 (by omega) (by simp))
      obtain ⟨v, rfl⟩ := hr
      obtain ⟨dmid, hrun, hperm⟩ := push_single_num_ok d v
      have hlenmid : dmid.length = d.length + 1 := by
        have := hperm.length_eq
        simpa using this
      have hj2 : j < rest.length := by simpa using hj
      have hbad2 : toFloat rest[j] = .error .invalidValue := by
        simpa using hbad
      have hgood2 : ∀ i, i < j → ∀ (hilen : i < rest.length),
          toFloat (rest.get ⟨i, hilen⟩) ≠ .error .invalidValue := by
        intro i hi hilen
        have := hgood (i + 1) (by omega) (by simpa using hilen)
        simpa using this
      obtain ⟨d2, h1, h2, h3⟩ := ih rest dmid hj2 hbad2 hgood2
      refine ⟨d2, ?_, ?_, by omega⟩
      · rw [push_list_cons_ok _ hrun]
        exact h1
      · simp only [List.take_succ_cons]
        rw [push_list_cons_ok _ hrun]
        exact h2

/-! ### The claims -/

/-- C1: for every sequence of public `push`/`pop` calls starting from a newly
constructed (empty) heap, after each call the min-heap property holds: for
every valid index `i > 0` of the element sequence,
`elements[(i-1)//2] <= elements[i]`.  Calls that raise leave the sequence
unchanged, so quantifying over all call sequences covers the state after
every completed call. -/
theorem claim1_heap_invariant (ops : List Op) : isHeap (runOps [] ops) :=
  (runOps_inv ops [] isHeap_nil allSome_nil).1

/-- C2: pushing any finite multiset of values into an empty heap and then
popping them all yields exactly that multiset in non-decreasing order; in
particular pushing `[3, 1, 1, 2]` and popping four times yields
`1, 1, 2, 3` in that order. -/
theorem claim2_extraction_sorted :
    (∀ vs : List Val, ∃ d ys,
      push_list [] (vs.map RawValue.num) = .ok () d ∧
      popN d vs.length = some ys ∧ ys.Perm (vs.map some) ∧
      List.Pairwise (fun a b => pyLe a b = true) ys) ∧
    (∃ d : List Entry, push_list [] ([3, 1, 1, 2].map RawValue.num) = .ok () d ∧
      popN d 4 = some [some 1, some 1, some 2, some 3]) := by
  have hgeneral : ∀ vs : List Val, ∃ d ys,
      push_list [] (vs.map RawValue.num) = .ok () d ∧
      popN d vs.length = some ys ∧ ys.Perm (vs.map some) ∧
      List.Pairwise (fun a b => pyLe a b = true) ys := by
    intro vs
    obtain ⟨d, hrun, hperm, hh, ha⟩ := push_list_num_spec vs [] isHeap_nil allSome_nil
    have hlen : vs.length = d.length := by
      have := hperm.length_eq
      simp at this
      omega
    obtain ⟨ys, hys, hysperm, hsorted⟩ := popN_sorted vs.length d hh ha hlen
    refine ⟨d, ys, hrun, hys, ?_, hsorted⟩
    refine hysperm.trans ?_
    simpa using hperm
  refine ⟨hgeneral, ?_⟩
  obtain ⟨d0, ys, hrun0, hpop0, hperm0, hsort0⟩ := hgeneral [3, 1, 1, 2]
  haveI : IsAntisymm Entry (fun a b => pyLe a b = true) :=
    ⟨fun a b h1 h2 => pyLe_antisymm h1 h2⟩
  have hys_eq : ys = [some 1, some 1, some 2, some 3] :=
    List.eq_of_perm_of_sorted (hperm0.trans (by decide)) hsort0 (by decide)
  rw [hys_eq] at hpop0
  exact ⟨d0, hrun0, hpop0⟩

/-- C3 counterexample: the claim says that on equal children the left child
is selected; on the heap state `[5, 1, 1]` both children of the root are `1`,
yet the selection step picks the right child (index 2), and accordingly the
sift-down of the root produces `[1, 1, 5]` (swap with the right child), not
`[1, 5, 1]` (which a left swap would produce). -/
theorem claim3_counterexample :
    get_value [some 5, some 1, some 1] (get_left_idx 0)
      = get_value [some 5, some 1, some 1] (get_right_idx 0) ∧
    (smaller_child [some 5, some 1, some 1] 0).1 = get_right_idx 0 ∧
    get_right_idx 0 ≠ get_left_idx 0 ∧
    bubble_down [some 5, some 1, some 1] 0 = .ok () [some 1, some 1, some 5] ∧
    bubble_down [some 5, some 1, some 1] 0 ≠ .ok () [some 1, some 5, some 1] := by
  have hsw : swap [some 5, some 1, some 1] 0
      (smaller_child [some 5, some 1, some 1] 0).1
      = .ok () [some 1, some 1, some 5] := by decide
  have hst : ¬(get_value [some 5, some 1, some 1] (get_left_idx 0) = none ∧
      get_value [some 5, some 1, some 1] (get_right_idx 0) = none) := by decide
  have hgt : pyGt (get_value [some 5, some 1, some 1] 0)
      (smaller_child [some 5, some 1, some 1] 0).2 = true := by decide
  have hstep := bubble_down_swap_step hst hgt hsw
  have hsc : (smaller_child [some 5, some 1, some 1] 0).1 = 2 := by decide
  rw [hsc] at hstep
  have hstop : bubble_down [some 1, some 1, some 5] 2
      = .ok () [some 1, some 1, some 5] :=
    bubble_down_stop (by decide) (by decide)
  have heval : bubble_down [some 5, some 1, some 1] 0
      = .ok () [some 1, some 1, some 5] := by
    rw [hstep, hstop]
  refine ⟨by decide, by decide, by decide, heval, ?_⟩
  rw [heval]
  decide

/-- C3 amended: in the sift-down child selection, whenever the two child
values exist and are numerically equal, the RIGHT child is the one selected
(the left child is selected only when the right value is absent or the left
value is strictly smaller). -/
theorem claim3_amended_right_tie {d : List Entry} {idx : Nat}
    (heq : get_value d (get_left_idx idx) = get_value d (get_right_idx idx))
    (hne : get_value d (get_right_idx idx) ≠ none) :
    smaller_child d idx = (get_right_idx idx, get_value d (get_right_idx idx)) := by
  have hcond : ¬(get_value d (get_right_idx idx) = none ∨
      pyLt (get_value d (get_left_idx idx))
        (get_value d (get_right_idx idx)) = true) := by
    push_neg
    refine ⟨hne, ?_⟩
    rw [heq, pyLt_irrefl]
    simp
  unfold smaller_child
  dsimp only
  rw [if_neg hcond]

/-- C3 amended, witness: on `[5, 1, 1]` the children of the root are equal
and present, and the right child (index 2) is selected. -/
theorem claim3_amended_right_tie_witness :
    (get_value [some 5, some 1, some 1] (get_left_idx 0)
      = get_value [some 5, some 1, some 1] (get_right_idx 0)) ∧
    (get_value [some 5, some 1, some 1] (get_right_idx 0) ≠ none) ∧
    smaller_child [some 5, some 1, some 1] 0
      = (get_right_idx 0, get_value [some 5, some 1, some 1] (get_right_idx 0)) :=
  ⟨by decide, by decide, claim3_amended_right_tie (by decide) (by decide)⟩

/-- C4: calling `pop` on a heap whose element sequence is empty raises
`EmptyHeap` and leaves the sequence exactly as it was (the carried state of
the error result is the unchanged sequence). -/
theorem claim4_pop_empty (d : List Entry) (h : d.length = 0) :
    pop d = .err .emptyHeap d := by
  have hd : d = [] := List.length_eq_zero.1 h
  subst hd
  exact pop_empty_eq

/-- C4 witness: popping the empty sequence raises `EmptyHeap` with the
sequence unchanged. -/
theorem claim4_pop_empty_witness :
    ([] : List Entry).length = 0 ∧ pop ([] : List Entry) = .err .emptyHeap [] :=
  ⟨rfl, claim4_pop_empty [] rfl⟩

/-- C5: pushing a single value that cannot be converted to the numeric type
raises `InvalidValue` and leaves the element sequence exactly as it was
before the call, for every heap state. -/
theorem claim5_push_invalid (d : List Entry) (r : RawValue)
    (h : toFloat r = .error .invalidValue) :
    push d (.single r) = .err .invalidValue d :=
  push_single_invalid d h

/-- C5 witness: pushing an unconvertible value onto `[1]` raises
`InvalidValue` and keeps the sequence `[1]`. -/
theorem claim5_push_invalid_witness :
    toFloat RawValue.invalid = .error .invalidValue ∧
    push [some 1] (.single .invalid) = .err .invalidValue [some 1] :=
  ⟨rfl, claim5_push_invalid [some 1] .invalid rfl⟩

/-- C6: starting from the empty heap, if a sequence of single-value pushes
and pops all complete, the final element count plus the number of pops
equals the number of pushes — i.e. the heap holds exactly `k - m` elements
after `k` pushes and `m` pops (and `m <= k` follows since lengths are
non-negative). -/
theorem claim6_size_tracking (ops : List SOp) (d2 : List Entry)
    (h : runSOps [] ops = some d2) :
    d2.length + countPop ops = countPush ops := by
  have := runSOps_length ops [] d2 h
  simpa using this

/-- C6 witness: one push of `5` followed by one pop completes and leaves
zero elements: `0 + 1 = 1`. -/
theorem claim6_size_tracking_witness :
    runSOps [] [SOp.push 5, SOp.pop] = some [] ∧
    ([] : List Entry).length + countPop [SOp.push 5, SOp.pop]
      = countPush [SOp.push 5, SOp.pop] := by
  have h1 : push ([] : List Entry) (.single (.num 5)) = .ok () [some 5] := by
    show bubble_up [some 5] 0 = Res.ok () [some 5]
    exact bubble_up_zero [some 5]
  have hrun : runSOps [] [SOp.push 5, SOp.pop] = some [] := by
    simp only [runSOps]
    rw [h1]
    dsimp only
    rw [pop_singleton]
  exact ⟨hrun, claim6_size_tracking [SOp.push 5, SOp.pop] [] hrun⟩

/-- C7: pushing a list of values as one batch call produces exactly the same
result (final element sequence, and error behavior) as performing the
single-value pushes sequentially in list order; the spec-side sequential
definition `push_seq_spec` coincides with the batch branch of `push` for
every heap state and every list, convertible or not. -/
theorem claim7_batch_push_equiv : ∀ (rs : List RawValue) (d : List Entry),
    push d (.list rs) = push_seq_spec d rs := by
  intro rs
  induction rs with
  | nil =>
    intro d
    rfl
  | cons r rest ih =>
    intro d
    show push_list d (r :: rest) = push_seq_spec d (r :: rest)
    cases hps : push_single d r with
    | ok a d1 =>
      cases a
      rw [push_list_cons_ok rest hps, push_seq_spec_cons_ok rest hps]
      exact ih d1
    | err e d1 =>
      rw [push_list_cons_err rest hps, push_seq_spec_cons_err rest hps]

/-- C8: the internal error branches `NoParent` and `NodeNotFound` are never
reached through the public operations: for every heap state and every
argument, neither `push` nor `pop` ever ends in one of those internal
errors (hence no sequence of public calls can reach them). -/
theorem claim8_internal_unreachable :
    (∀ (d : List Entry) (arg : PushArg), hitsInternal (push d arg) = false) ∧
    (∀ d : List Entry, hitsInternal (pop d) = false) :=
  ⟨push_not_internal, pop_not_internal⟩

/-- C9: both sift routines terminate on every input state, with explicitly
bounded recursion depth: sift-up from index `idx` completes within `idx + 1`
steps (the index strictly decreases toward the root), and sift-down on a
sequence of length `n` completes within `n + 1` steps (the index strictly
increases toward the leaves while staying inside the sequence); the fueled
versions therefore agree with the recursive ones. -/
theorem claim9_sift_terminates :
    (∀ (d : List Entry) (idx : Nat),
      bubble_up_fuel (idx + 1) d idx = some (bubble_up d idx)) ∧
    (∀ (d : List Entry) (k : Nat),
      bubble_down_fuel (d.length + 1) d k = some (bubble_down d k)) :=
  ⟨fun d idx => bubble_up_fuel_eq (idx + 1) idx d (by omega),
   fun d k => bubble_down_fuel_eq (d.length + 1) d k (by omega)⟩

/-- C10: batch push is not atomic on error: if the element at position
`j > 0` of the pushed list is unconvertible while all earlier elements are
convertible, the call raises `InvalidValue` but the `j` earlier elements
remain inserted — the final sequence is the result of pushing the first `j`
elements, has `j` more elements than before, and differs from the
pre-call sequence. -/
theorem claim10_batch_not_atomic (d : List Entry) (rs : List RawValue)
    (j : Nat) (hj : j < rs.length) (h0 : 0 < j)
    (hbad : toFloat rs[j] = .error .invalidValue)
    (hgood : ∀ i, i < j → ∀ (hilen : i < rs.length),
      toFloat (rs.get ⟨i, hilen⟩) ≠ .error .invalidValue) :
    ∃ d2, push d (.list rs) = .err .invalidValue d2 ∧
      push_list d (rs.take j) = .ok () d2 ∧
      d2.length = d.length + j ∧ d2 ≠ d := by
  obtain ⟨d2, h1, h2, h3⟩ := push_list_stops_at_bad j rs d hj hbad hgood
  refine ⟨d2, h1, h2, h3, ?_⟩
  intro hdd
  rw [hdd] at h3
  omega

/-- C10 witness: pushing `[7, invalid]` onto the empty heap raises
`InvalidValue`, yet leaves the `7` inserted. -/
theorem claim10_batch_not_atomic_witness :
    ∃ d2, push [] (.list [RawValue.num 7, RawValue.invalid])
        = .err .invalidValue d2 ∧
      push_list [] ([RawValue.num 7, RawValue.invalid].take 1) = .ok () d2 ∧
      d2.length = ([] : List Entry).length + 1 ∧ d2 ≠ [] :=
  claim10_batch_not_atomic [] [RawValue.num 7, RawValue.invalid] 1
    (by decide) (by decide) rfl
    (by
      intro i hi hilen
      have h0 : i = 0 := by omega
      subst h0
      simp [toFloat])

end MinHeap
